import Mathlib

/-!
Verification of the form field-state and validation orchestration engine
(`useStore` hook, `FormItem` registration and `Form` submission flow).

The TypeScript source is shallowly embedded:
* a JS object keyed by field names becomes an association list
  `List (String × _)` with JS spread/update semantics (`upsert`);
* a JS object property that may be `undefined` (because a record was built
  by spreading `undefined`) becomes an `Option` field of `FieldDetail`;
* the external validation engine (`async-validator`'s `Schema.validate`)
  is an abstract parameter `Engine`; a statement that would throw in JS
  (destructuring / `.map` on `undefined`) returns `none`;
* the store/form effects performed by a call (`setForm`, `dispatch`,
  the single engine invocation) are recorded as an ordered event list.
-/

namespace VikingForm

/-- Field values.  In the source every field value is a string
(the initial value is the empty string, updates come from input events). -/
abbrev Value := String

/-- A validation error record of the external engine (`ValidateError`):
a message and the field it belongs to. -/
structure ValidateError where
  message : String
  field : String
  deriving DecidableEq, Repr

/-- The mapping from field name to that field's error list
(`Record<string, ValidateError[]>`). -/
abbrev ErrorFields := List (String × List ValidateError)

/-- A value map handed to the engine; an entry's value may be `undefined`
(the record it was read from may lack a `value` property). -/
abbrev ValueMap := List (String × Option Value)

/-- A static rule descriptor (`RuleItem`).  Only the parts exercised by
this engine are modelled: `required`, an optional custom `validator`
predicate on the (possibly `undefined`) value, and a message. -/
structure RuleItem where
  required : Bool := false
  message : String := ""
  validator : Option (Option Value → Bool) := none

/-- `CustomRule`: either a static rule descriptor, or a rule-generator
function receiving the `getFieldValue` accessor. -/
inductive CustomRule where
  | static (rule : RuleItem)
  | gen (f : (String → Option Value) → RuleItem)

/-- `FieldDetail`, as a JS object: every property is `Option`al because the
reducer can build a record by spreading `undefined` (e.g. `updateValue` on
an unregistered name yields an object holding only `value`).  A record
registered through `addField` has every property present. -/
structure FieldDetail where
  name : Option String := none
  value : Option Value := none
  rules : Option (List CustomRule) := none
  isValid : Option Bool := none
  errors : Option (List ValidateError) := none

/-- `FieldsState`: the store, a JS object keyed by field name, modelled as
an association list in key-insertion order (JS objects preserve it). -/
abbrev FieldsState := List (String × FieldDetail)

/-- `FieldsAction`: the three legal store mutations. -/
inductive FieldsAction where
  | addField (name : String) (value : FieldDetail)
  | updateValue (name : String) (value : Value)
  | updateValidateResult (name : String) (isValid : Bool) (errors : List ValidateError)

/-- `FormState`: the aggregate form state kept in `useState`. -/
structure FormState where
  isValid : Bool
  isSubmitting : Bool
  errors : ErrorFields
  deriving Repr

/-- The initial `FormState` of `useStore`. -/
def initialFormState : FormState := { isValid := true, isSubmitting := false, errors := [] }

/-- JS property read `obj[n]` on an object modelled as an association
list: the (unique) entry for key `n`, or `none` for `undefined`. -/
def alookup {β : Type} : List (String × β) → String → Option β
  | [], _ => none
  | p :: rest, n => if p.1 = n then some p.2 else alookup rest n

/-- JS spread-update `{...obj, [n]: d}`: replace the entry for `n` in
place if present, otherwise append a new entry (JS key-order semantics). -/
def upsert {β : Type} : List (String × β) → String → β → List (String × β)
  | [], n, d => [(n, d)]
  | p :: rest, n, d => if p.1 = n then (n, d) :: rest else p :: upsert rest n d

/-- `fieldsReducer`: the store's transition function.
`addField` inserts a shallow copy of the payload; `updateValue` and
`updateValidateResult` spread the existing record (`undefined` spreads to
nothing, hence `getD {}`) and overwrite the named properties. -/
def fieldsReducer (state : FieldsState) (action : FieldsAction) : FieldsState :=
  match action with
  | .addField name value =>
      upsert state name value
  | .updateValue name value =>
      upsert state name { (alookup state name).getD {} with value := some value }
  | .updateValidateResult name isValid errors =>
      upsert state name { (alookup state name).getD {} with isValid := some isValid, errors := some errors }

/-- `getFieldValue`: `fields[key] && fields[key].value`. -/
def getFieldValue (fields : FieldsState) (key : String) : Option Value :=
  (alookup fields key).bind (·.value)

/-- `getFieldsValue`: `mapValues(fields, item => item.value)`. -/
def getFieldsValue (fields : FieldsState) : ValueMap :=
  fields.map fun p => (p.1, p.2.value)

/-- `setFieldValue`: dispatch `updateValue` only when the name is registered. -/
def setFieldValue (fields : FieldsState) (name : String) (value : Value) : FieldsState :=
  if (alookup fields name).isSome then fieldsReducer fields (.updateValue name value) else fields

/-- `resetFields`: when `initialValues` was supplied, iterate it and
dispatch `updateValue(name, value)` for every name registered in the
(render-time) `fields` snapshot; otherwise do nothing. -/
def resetFields (initialValues : Option (List (String × Value))) (fields : FieldsState) : FieldsState :=
  match initialValues with
  | none => fields
  | some ivs =>
      (ivs.filter fun p => (alookup fields p.1).isSome).foldl
        (fun st p => fieldsReducer st (.updateValue p.1 p.2)) fields

/-! ### Basic association-list lemmas -/

theorem alookup_upsert {β : Type} (s : List (String × β)) (n : String) (d : β) (m : String) :
    alookup (upsert s n d) m = if m = n then some d else alookup s m := by
  induction s with
  | nil =>
      simp only [upsert, alookup]
      split_ifs <;> first | rfl | simp_all
  | cons p rest ih =>
      by_cases hp : p.1 = n
      · simp only [upsert, if_pos hp, alookup]
        split_ifs <;> first | rfl | simp_all
      · simp only [upsert, if_neg hp, alookup, ih]
        split_ifs <;> first | rfl | simp_all

theorem upsert_of_alookup_none {β : Type} (s : List (String × β)) (n : String) (d : β)
    (h : alookup s n = none) : upsert s n d = s ++ [(n, d)] := by
  induction s with
  | nil => simp [upsert]
  | cons p rest ih =>
      simp only [alookup] at h
      by_cases hp : p.1 = n
      · rw [if_pos hp] at h; exact absurd h (by simp)
      · rw [if_neg hp] at h
        simp [upsert, hp, ih h]

theorem alookup_isSome_of_mem {β : Type} {s : List (String × β)} {p : String × β}
    (h : p ∈ s) : (alookup s p.1).isSome := by
  induction s with
  | nil => simp at h
  | cons q rest ih =>
      rcases List.mem_cons.mp h with h | h
      · subst h; simp [alookup]
      · simp only [alookup]
        by_cases hq : q.1 = p.1
        · simp [hq]
        · simp [hq, ih h]

/-! ### Claim C2: the reducer on an unknown field name -/

/-- C2 counterexample.  The claim says `updateValue("ghost", 1)` on a store
without "ghost" is a no-op returning a structurally equal store.  On the
empty store the reducer instead returns a store that is not equal to the
input: spreading the `undefined` record produces a fresh partial record
`{value: "1"}` keyed by "ghost". -/
theorem fieldsReducer_unknown_not_noop :
    fieldsReducer [] (FieldsAction.updateValue "ghost" "1") ≠ ([] : FieldsState)
    ∧ alookup (fieldsReducer [] (FieldsAction.updateValue "ghost" "1")) "ghost" =
        some { value := some "1" } := by
  constructor
  · intro h
    simp [fieldsReducer, upsert] at h
  · rfl

/-- C2 (amended): `updateValue` / `updateValidateResult` on an unknown
name is not a no-op; each appends a fresh partial record for that name
holding only the properties set by the action (the spread of `undefined`
contributes nothing). -/
theorem fieldsReducer_unknown_appends_partial_record
    (s : FieldsState) (n : String) (v : Value) (b : Bool) (es : List ValidateError)
    (h : alookup s n = none) :
    fieldsReducer s (.updateValue n v) = s ++ [(n, { value := some v })]
    ∧ fieldsReducer s (.updateValidateResult n b es) =
        s ++ [(n, { isValid := some b, errors := some es })] := by
  constructor
  · simp only [fieldsReducer, h, Option.getD_none]
    exact upsert_of_alookup_none s n _ h
  · simp only [fieldsReducer, h, Option.getD_none]
    exact upsert_of_alookup_none s n _ h

/-- Witness for the amended C2 at the concrete input of the counterexample. -/
theorem fieldsReducer_unknown_appends_partial_record_witness :
    fieldsReducer [] (.updateValue "ghost" "1") = [] ++ [("ghost", { value := some "1" })]
    ∧ fieldsReducer [] (.updateValidateResult "ghost" false []) =
        [] ++ [("ghost", { isValid := some false, errors := some [] })] :=
  ⟨(fieldsReducer_unknown_appends_partial_record [] "ghost" "1" false [] rfl).1,
   (fieldsReducer_unknown_appends_partial_record [] "ghost" "1" false [] rfl).2⟩

/-! ### Claim C8: frame conditions of the reducer -/

/-- C8: for a registered name `n`, `updateValue` changes only `n`'s
`value` property (the record's other properties and every other field's
record are untouched), `updateValidateResult` changes only `n`'s
`isValid`/`errors`, and `addField` installs a (shallow copy of) the
payload record under `n` leaving other fields untouched.  The transitions
are pure: the pre-transition snapshot is a value and is never mutated. -/
theorem fieldsReducer_frame (s : FieldsState) (n : String) (fd : FieldDetail)
    (h : alookup s n = some fd) :
    (∀ v : Value,
       alookup (fieldsReducer s (.updateValue n v)) n = some { fd with value := some v }
       ∧ ∀ m, m ≠ n → alookup (fieldsReducer s (.updateValue n v)) m = alookup s m)
    ∧ (∀ (b : Bool) (es : List ValidateError),
       alookup (fieldsReducer s (.updateValidateResult n b es)) n =
           some { fd with isValid := some b, errors := some es }
       ∧ ∀ m, m ≠ n → alookup (fieldsReducer s (.updateValidateResult n b es)) m = alookup s m)
    ∧ (∀ r : FieldDetail,
       alookup (fieldsReducer s (.addField n r)) n = some r
       ∧ ∀ m, m ≠ n → alookup (fieldsReducer s (.addField n r)) m = alookup s m) := by
  refine ⟨fun v => ⟨?_, fun m hm => ?_⟩, fun b es => ⟨?_, fun m hm => ?_⟩,
    fun r => ⟨?_, fun m hm => ?_⟩⟩
  · simp [fieldsReducer, alookup_upsert, h]
  · simp [fieldsReducer, alookup_upsert, hm]
  · simp [fieldsReducer, alookup_upsert, h]
  · simp [fieldsReducer, alookup_upsert, hm]
  · simp [fieldsReducer, alookup_upsert]
  · simp [fieldsReducer, alookup_upsert, hm]

/-- Witness for C8 on a concrete two-field store. -/
theorem fieldsReducer_frame_witness :
    (∀ v : Value,
       alookup (fieldsReducer [("a", { value := some "x" }), ("b", { value := some "y" })]
           (.updateValue "a" v)) "a" = some { ({ value := some "x" } : FieldDetail) with value := some v }
       ∧ ∀ m, m ≠ "a" →
           alookup (fieldsReducer [("a", { value := some "x" }), ("b", { value := some "y" })]
             (.updateValue "a" v)) m =
           alookup [("a", { value := some "x" }), ("b", { value := some "y" })] m)
    ∧ (∀ (b : Bool) (es : List ValidateError),
       alookup (fieldsReducer [("a", { value := some "x" }), ("b", { value := some "y" })]
           (.updateValidateResult "a" b es)) "a" =
           some { ({ value := some "x" } : FieldDetail) with isValid := some b, errors := some es }
       ∧ ∀ m, m ≠ "a" →
           alookup (fieldsReducer [("a", { value := some "x" }), ("b", { value := some "y" })]
             (.updateValidateResult "a" b es)) m =
           alookup [("a", { value := some "x" }), ("b", { value := some "y" })] m)
    ∧ (∀ r : FieldDetail,
       alookup (fieldsReducer [("a", { value := some "x" }), ("b", { value := some "y" })]
           (.addField "a" r)) "a" = some r
       ∧ ∀ m, m ≠ "a" →
           alookup (fieldsReducer [("a", { value := some "x" }), ("b", { value := some "y" })]
             (.addField "a" r)) m =
           alookup [("a", { value := some "x" }), ("b", { value := some "y" })] m) :=
  fieldsReducer_frame [("a", { value := some "x" }), ("b", { value := some "y" })] "a"
    { value := some "x" } rfl

/-! ### Rule resolution and the external engine -/

/-- `transfromRules` (name as in the source): resolve each rule; a
function rule is invoked with the `getFieldValue` accessor, a plain rule
passes through. -/
def transfromRules (acc : String → Option Value) (rules : List CustomRule) : List RuleItem :=
  rules.map fun rule =>
    match rule with
    | .static r => r
    | .gen f => f acc

/-- The descriptor shape handed to the external engine: field name to
resolved (static) rule list. -/
abbrev Descriptor := List (String × List RuleItem)

/-- The aggregate error an engine failure carries: the flat `errors` list
and the per-field `fields` mapping. -/
structure AggregateError where
  errors : List ValidateError
  fields : ErrorFields

/-- The external validation engine (`new Schema(descriptor)` followed by
`validator.validate(valueMap)`), abstracted: `none` means the promise
resolved, `some e` means it rejected with aggregate error `e`.  As a Lean
function it is deterministic in the descriptor and the value map. -/
abbrev Engine := Descriptor → ValueMap → Option AggregateError

/-- `mapValues(fields, item => transfromRules(item.rules))`.  Returns
`none` when some record has no `rules` property, where the source would
throw (`undefined.map`). -/
def descriptorOf? (acc : String → Option Value) : FieldsState → Option Descriptor
  | [] => some []
  | p :: rest =>
      match p.2.rules, descriptorOf? acc rest with
      | some rs, some d => some ((p.1, transfromRules acc rs) :: d)
      | _, _ => none

/-- `validateField`: read the named record, resolve its rules with the
whole-store accessor, run the engine on the single-field descriptor and
value map, and dispatch exactly one `updateValidateResult` (the
`finally` block).  Returns the dispatched action together with the store
after the dispatch; `none` models the `TypeError` raised before the
`try` when the record is missing or has no `rules` property. -/
def validateField (engine : Engine) (fields : FieldsState) (name : String) :
    Option (FieldsAction × FieldsState) :=
  match alookup fields name with
  | none => none
  | some fd =>
      match fd.rules with
      | none => none
      | some rules =>
          let afterRules := transfromRules (getFieldValue fields) rules
          let descriptor : Descriptor := [(name, afterRules)]
          let valueMap : ValueMap := [(name, fd.value)]
          let result :=
            match engine descriptor valueMap with
            | none => (true, ([] : List ValidateError))
            | some err => (false, err.errors)
          let action := FieldsAction.updateValidateResult name result.1 result.2
          some (action, fieldsReducer fields action)

/-- A concrete executable engine used to exercise the definitions on
closed inputs: a `required` rule fails on a missing or empty value, a
`validator` rule fails when its predicate rejects the value; a field's
errors are the failing rules' messages in order, and the aggregate error
collects exactly the fields with a nonempty error list. -/
def checkRule (n : String) (v : Option Value) (r : RuleItem) : List ValidateError :=
  (if r.required && (v.getD "").isEmpty then [⟨r.message, n⟩] else [])
    ++ (match r.validator with
        | some f => if f v then [] else [⟨r.message, n⟩]
        | none => [])

/-- The per-field error lists a concrete engine run produces. -/
def engineFieldErrors (d : Descriptor) (vm : ValueMap) : ErrorFields :=
  (d.map fun p => (p.1, p.2.flatMap (checkRule p.1 ((alookup vm p.1).bind id)))).filter
    fun p => !p.2.isEmpty

/-- The concrete engine: succeed when no field has errors, otherwise
reject with the flat error list and the per-field mapping. -/
def simpleEngine : Engine := fun d vm =>
  let fe := engineFieldErrors d vm
  if fe.isEmpty then none else some ⟨fe.flatMap (·.2), fe⟩

/-! ### Claim C4: the single-field validator never throws -/

/-- C4: for a field registered with a rule list, `validateField` always
returns (never raises: every engine rejection is caught), dispatches
exactly one `updateValidateResult` into the store, with `isValid=true`
and `errors=[]` when the engine succeeds, and `isValid=false` and the
engine's error list when it fails. -/
theorem validateField_total_single_dispatch
    (engine : Engine) (fields : FieldsState) (name : String)
    (fd : FieldDetail) (rules : List CustomRule)
    (hreg : alookup fields name = some fd) (hrules : fd.rules = some rules) :
    ∃ (b : Bool) (es : List ValidateError),
      validateField engine fields name =
        some (FieldsAction.updateValidateResult name b es,
              fieldsReducer fields (FieldsAction.updateValidateResult name b es))
      ∧ (engine [(name, transfromRules (getFieldValue fields) rules)] [(name, fd.value)] = none →
           b = true ∧ es = [])
      ∧ (∀ err, engine [(name, transfromRules (getFieldValue fields) rules)] [(name, fd.value)] =
            some err → b = false ∧ es = err.errors) := by
  rcases he : engine [(name, transfromRules (getFieldValue fields) rules)] [(name, fd.value)] with
    _ | err
  · refine ⟨true, [], ?_, fun _ => ⟨rfl, rfl⟩, ?_⟩
    · simp [validateField, hreg, hrules, he]
    · intro err h
      simp at h
  · refine ⟨false, err.errors, ?_, ?_, ?_⟩
    · simp [validateField, hreg, hrules, he]
    · intro h
      simp at h
    · intro err' h
      cases h
      exact ⟨rfl, rfl⟩

/-- A registered record as `FormItem` builds it on mount:
`{label, name, value, rules: rules || [], errors: [], isValid: true}`. -/
def registeredField (n : String) (v : Value) (rs : List CustomRule) : FieldDetail :=
  { name := some n, value := some v, rules := some rs, isValid := some true, errors := some [] }

/-- The spec's single-field example: field "email" with `{required: true}`
and the empty value. -/
def emailStore : FieldsState :=
  [("email", registeredField "email" "" [.static { required := true, message := "email is required" }])]

/-- Witness for C4 on the "email" store with the concrete engine. -/
theorem validateField_total_single_dispatch_witness :
    ∃ (b : Bool) (es : List ValidateError),
      validateField simpleEngine emailStore "email" =
        some (FieldsAction.updateValidateResult "email" b es,
              fieldsReducer emailStore (FieldsAction.updateValidateResult "email" b es))
      ∧ (simpleEngine
            [("email", transfromRules (getFieldValue emailStore)
                [.static { required := true, message := "email is required" }])]
            [("email", (registeredField "email" ""
                [.static { required := true, message := "email is required" }]).value)] = none →
           b = true ∧ es = [])
      ∧ (∀ err, simpleEngine
            [("email", transfromRules (getFieldValue emailStore)
                [.static { required := true, message := "email is required" }])]
            [("email", (registeredField "email" ""
                [.static { required := true, message := "email is required" }]).value)] =
            some err → b = false ∧ es = err.errors) :=
  validateField_total_single_dispatch simpleEngine emailStore "email"
    (registeredField "email" "" [.static { required := true, message := "email is required" }])
    [.static { required := true, message := "email is required" }] rfl rfl

/-! ### Claim C6: rule resolution is element-wise and late-binding -/

/-- The spec's cross-field rule: "confirm" must equal the current value of
"password", expressed as a rule-generator reading through the accessor. -/
def confirmRule : CustomRule :=
  .gen fun acc =>
    { validator := some fun v => v == acc "password", message := "confirm must match password" }

/-- The spec's cross-field store: "password" set to "abc123", "confirm"
set to "xyz" and carrying the generator rule. -/
def confirmStore : FieldsState :=
  [("password", registeredField "password" "abc123" []),
   ("confirm", registeredField "confirm" "xyz" [confirmRule])]

/-- The `isValid` flag of the result a `validateField` call dispatched. -/
def dispatchedValid (r : Option (FieldsAction × FieldsState)) : Option Bool :=
  r.bind fun p =>
    match p.1 with
    | .updateValidateResult _ b _ => some b
    | _ => none

/-- C6: `transfromRules` maps the rule list element-wise (order and length
preserved; a static rule passes through, a generator is replaced by the
descriptor it returns from the accessor it is invoked with), and
resolution is late-binding: with the accessor reading the current store,
the spec's "confirm"/"password" scenario first fails validation and, after
an `updateValue` to either of the two fields, succeeds. -/
theorem transfromRules_elementwise_late_binding :
    (∀ (acc : String → Option Value) (rules : List CustomRule),
       (transfromRules acc rules).length = rules.length)
    ∧ (∀ (acc : String → Option Value) (rules : List CustomRule) (i : Nat),
       (transfromRules acc rules)[i]? =
         (rules[i]?).map fun rule =>
           match rule with
           | .static r => r
           | .gen f => f acc)
    ∧ dispatchedValid (validateField simpleEngine confirmStore "confirm") = some false
    ∧ dispatchedValid (validateField simpleEngine
        (fieldsReducer confirmStore (.updateValue "confirm" "abc123")) "confirm") = some true
    ∧ dispatchedValid (validateField simpleEngine
        (fieldsReducer confirmStore (.updateValue "password" "xyz")) "confirm") = some true := by
  refine ⟨fun acc rules => ?_, fun acc rules i => ?_, rfl, rfl, rfl⟩
  · simp [transfromRules]
  · simp [transfromRules]

/-! ### The aggregate validator `validateAllFields` -/

/-- An observable effect of `validateAllFields`, in program order:
a `setForm` state write, the single engine invocation, or a store
dispatch. -/
inductive StoreEvent where
  | setForm (f : FormState)
  | engineCall (d : Descriptor) (vm : ValueMap)
  | dispatch (a : FieldsAction)

/-- The `{isValid, errors, values}` object returned to the caller. -/
structure VResult where
  isValid : Bool
  errors : ErrorFields
  values : ValueMap

/-- Everything a `validateAllFields` call produces: the returned result,
the store after all dispatches, the final form state, and the ordered
effect trace. -/
structure VAllOutcome where
  result : VResult
  fields : FieldsState
  form : FormState
  events : List StoreEvent

/-- The per-field results dispatched in the `catch` branch, iterating the
fields in store order: a field with an entry in the error mapping gets
`(isValid=false, errors=<entry>)`; otherwise a field with a nonempty rule
list gets `(isValid=true, errors=[])`; other fields are skipped. -/
def actionsFor (fields : FieldsState) (errors : ErrorFields) :
    List (String × Bool × List ValidateError) :=
  fields.filterMap fun p =>
    match alookup errors p.1 with
    | some itemErrors => some (p.1, false, itemErrors)
    | none =>
        if (p.2.rules.getD []).length > 0 then some (p.1, true, ([] : List ValidateError))
        else none

/-- The `updateValidateResult` dispatch built from a per-field result. -/
def dispatchOf (a : String × Bool × List ValidateError) : FieldsAction :=
  .updateValidateResult a.1 a.2.1 a.2.2

/-- One dispatch processed by the store. -/
def applyResult (st : FieldsState) (a : String × Bool × List ValidateError) : FieldsState :=
  fieldsReducer st (dispatchOf a)

/-- The store after the `catch` branch's sequence of dispatches. -/
def redistribute (fields : FieldsState) (errors : ErrorFields) : FieldsState :=
  (actionsFor fields errors).foldl applyResult fields

/-- The first form write, `setForm({...form, isSubmitting: true})`. -/
def submittingForm (form : FormState) : FormState :=
  { form with isSubmitting := true }

/-- The `finally` form write,
`setForm({...form, isSubmitting: false, isValid, errors})` — note it
spreads the render-time `form`, not the submitting one. -/
def finishedForm (form : FormState) (isValid : Bool) (errors : ErrorFields) : FormState :=
  { form with isSubmitting := false, isValid := isValid, errors := errors }

/-- `validateAllFields`: build the value map and the combined descriptor,
set `isSubmitting`, run the engine once; on success return
`{isValid: true, errors: {}}` with no dispatches; on failure take the
aggregate error's field mapping, dispatch per-field results, and return
`{isValid: false, errors: <mapping>}`; in both cases the `finally` block
clears `isSubmitting` (spreading the render-time `form`) before the
return.  `none` models the `TypeError` thrown while building the
descriptor when a record has no `rules` property. -/
def validateAllFields (engine : Engine) (form : FormState) (fields : FieldsState) :
    Option VAllOutcome :=
  match descriptorOf? (getFieldValue fields) fields with
  | none => none
  | some descriptor =>
      match engine descriptor (getFieldsValue fields) with
      | none =>
          some ⟨⟨true, [], getFieldsValue fields⟩, fields, finishedForm form true [],
                [.setForm (submittingForm form),
                 .engineCall descriptor (getFieldsValue fields),
                 .setForm (finishedForm form true [])]⟩
      | some err =>
          some ⟨⟨false, err.fields, getFieldsValue fields⟩, redistribute fields err.fields,
                finishedForm form false err.fields,
                .setForm (submittingForm form) ::
                  .engineCall descriptor (getFieldsValue fields) ::
                  ((actionsFor fields err.fields).map fun a => .dispatch (dispatchOf a)) ++
                  [.setForm (finishedForm form false err.fields)]⟩

/-! ### Claim C1: the success path of `validateAllFields` -/

/-- A store holding one field whose value now satisfies its rule but whose
stored result is a stale failure from an earlier pass. -/
def staleStore : FieldsState :=
  [("a", { registeredField "a" "x" [.static { required := true, message := "a is required" }] with
           isValid := some false, errors := some [⟨"a is required", "a"⟩] })]

/-- C1 counterexample.  The claim says that on overall engine success
every field with rules receives `updateValidateResult(isValid=true,
errors=[])`, clearing stale failing state.  On `staleStore` the engine
succeeds, yet the call performs no dispatch at all and returns the store
unchanged: field "a" still carries `isValid=false` while the aggregate
result says `isValid=true`. -/
theorem validateAllFields_success_skips_redispatch :
    ∃ o, validateAllFields simpleEngine initialFormState staleStore = some o
      ∧ o.result.isValid = true
      ∧ o.fields = staleStore
      ∧ (o.events.all fun e =>
          match e with
          | .dispatch _ => false
          | _ => true) = true
      ∧ (alookup staleStore "a").map (·.isValid) = some (some false) :=
  ⟨_, rfl, rfl, rfl, rfl, rfl⟩

/-- C1 (amended): when the engine reports overall success the call returns
`isValid=true` and `errors={}`, but dispatches no `updateValidateResult`
at all — the store is left exactly as it was, so a field holding a stale
failing result keeps it. -/
theorem validateAllFields_success_no_dispatch (engine : Engine) (form : FormState)
    (fields : FieldsState) (o : VAllOutcome)
    (h : validateAllFields engine form fields = some o) (hv : o.result.isValid = true) :
    o.result.errors = [] ∧ o.fields = fields
      ∧ ∀ e ∈ o.events, ∀ a : FieldsAction, e ≠ StoreEvent.dispatch a := by
  rcases hd : descriptorOf? (getFieldValue fields) fields with _ | d
  · simp [validateAllFields, hd] at h
  · rcases he : engine d (getFieldsValue fields) with _ | err
    · simp only [validateAllFields, hd, he, Option.some.injEq] at h
      subst h
      refine ⟨rfl, rfl, ?_⟩
      intro e he' a hea
      subst hea
      simp at he'
    · simp only [validateAllFields, hd, he, Option.some.injEq] at h
      subst h
      simp at hv

/-- The outcome of a successful aggregate validation on `staleStore`. -/
def successOutcome : VAllOutcome :=
  (validateAllFields simpleEngine initialFormState staleStore).getD
    ⟨⟨true, [], []⟩, [], initialFormState, []⟩

/-- Witness for the amended C1 at the counterexample's concrete input. -/
theorem validateAllFields_success_no_dispatch_witness :
    successOutcome.result.errors = [] ∧ successOutcome.fields = staleStore
      ∧ ∀ e ∈ successOutcome.events, ∀ a : FieldsAction, e ≠ StoreEvent.dispatch a :=
  validateAllFields_success_no_dispatch simpleEngine initialFormState staleStore
    successOutcome rfl rfl

/-! ### Claim C5: the `isSubmitting` lifecycle -/

/-- C5: `isSubmitting` starts out false; every completed
`validateAllFields` call first writes the form state with
`isSubmitting=true`, then (and only then) invokes the engine, and its last
effect before returning is the form write with `isSubmitting=false`; in
between only store dispatches happen, so no form state other than those
two is ever written — `isSubmitting` is true strictly inside the call. -/
theorem validateAllFields_isSubmitting_lifecycle (engine : Engine) (form : FormState)
    (fields : FieldsState) (o : VAllOutcome)
    (h : validateAllFields engine form fields = some o) :
    initialFormState.isSubmitting = false
    ∧ (∃ d vm rest,
        o.events = StoreEvent.setForm (submittingForm form) ::
          StoreEvent.engineCall d vm :: rest ++ [StoreEvent.setForm o.form]
        ∧ ∀ e ∈ rest, ∃ a, e = StoreEvent.dispatch a)
    ∧ o.form.isSubmitting = false
    ∧ ∀ f, StoreEvent.setForm f ∈ o.events →
        f = submittingForm form ∨ f = o.form := by
  rcases hd : descriptorOf? (getFieldValue fields) fields with _ | d
  · simp [validateAllFields, hd] at h
  · rcases he : engine d (getFieldsValue fields) with _ | err
    · simp only [validateAllFields, hd, he, Option.some.injEq] at h
      subst h
      refine ⟨rfl, ⟨d, getFieldsValue fields, [], rfl, by simp⟩, rfl, ?_⟩
      intro f hf
      simp at hf
      exact hf
    · simp only [validateAllFields, hd, he, Option.some.injEq] at h
      subst h
      refine ⟨rfl, ⟨d, getFieldsValue fields,
        (actionsFor fields err.fields).map fun a => .dispatch (dispatchOf a), rfl, ?_⟩, rfl, ?_⟩
      · intro e he'
        rcases List.mem_map.mp he' with ⟨a, _, rfl⟩
        exact ⟨dispatchOf a, rfl⟩
      · intro f hf
        simp at hf
        exact hf

/-- Witness for C5 at the concrete success run on `staleStore`. -/
theorem validateAllFields_isSubmitting_lifecycle_witness :
    initialFormState.isSubmitting = false
    ∧ (∃ d vm rest,
        successOutcome.events = StoreEvent.setForm (submittingForm initialFormState) ::
          StoreEvent.engineCall d vm :: rest ++ [StoreEvent.setForm successOutcome.form]
        ∧ ∀ e ∈ rest, ∃ a, e = StoreEvent.dispatch a)
    ∧ successOutcome.form.isSubmitting = false
    ∧ ∀ f, StoreEvent.setForm f ∈ successOutcome.events →
        f = submittingForm initialFormState ∨ f = successOutcome.form :=
  validateAllFields_isSubmitting_lifecycle simpleEngine initialFormState staleStore
    successOutcome rfl

/-! ### Claim C9: the submission orchestrator -/

/-- Which of the two registered callbacks a submission invoked, with its
arguments. -/
inductive CallbackCall where
  | onFinish (values : ValueMap)
  | onFinishFailed (values : ValueMap) (errors : ErrorFields)

/-- The observable outcome of `submitForm`: whether the event's default
behaviour and propagation were suppressed, and the single callback call. -/
structure SubmitResult where
  defaultPrevented : Bool
  propagationStopped : Bool
  callback : Option CallbackCall

/-- `submitForm`: `preventDefault`/`stopPropagation`, await
`validateAllFields`, then call `onFinish(values)` when valid and provided,
else `onFinishFailed(values, errors)` when invalid and provided. -/
def submitForm (engine : Engine) (form : FormState) (fields : FieldsState)
    (hasOnFinish hasOnFinishFailed : Bool) : Option SubmitResult :=
  (validateAllFields engine form fields).map fun o =>
    { defaultPrevented := true
      propagationStopped := true
      callback :=
        if o.result.isValid && hasOnFinish then some (.onFinish o.result.values)
        else if !o.result.isValid && hasOnFinishFailed then
          some (.onFinishFailed o.result.values o.result.errors)
        else none }

/-- C9: with both callbacks registered, a submission suppresses the
event's default behaviour and propagation, awaits `validateAllFields`,
and invokes exactly one callback: `onFinish` with the values when
`isValid`, otherwise `onFinishFailed` with the values and errors. -/
theorem submitForm_one_callback (engine : Engine) (form : FormState)
    (fields : FieldsState) (o : VAllOutcome)
    (h : validateAllFields engine form fields = some o) :
    submitForm engine form fields true true =
      some { defaultPrevented := true
             propagationStopped := true
             callback := some (if o.result.isValid then CallbackCall.onFinish o.result.values
               else CallbackCall.onFinishFailed o.result.values o.result.errors) } := by
  cases hb : o.result.isValid <;> simp [submitForm, h, hb]

/-- The spec's aggregate example store: "a" required and empty, "b"
required and filled. -/
def storeAB : FieldsState :=
  [("a", registeredField "a" "" [.static { required := true, message := "a is required" }]),
   ("b", registeredField "b" "filled" [.static { required := true, message := "b is required" }])]

/-- The outcome of the failing aggregate validation on `storeAB`. -/
def abOutcome : VAllOutcome :=
  (validateAllFields simpleEngine initialFormState storeAB).getD
    ⟨⟨true, [], []⟩, [], initialFormState, []⟩

/-- Witness for C9 at the concrete failing run on `storeAB`. -/
theorem submitForm_one_callback_witness :
    submitForm simpleEngine initialFormState storeAB true true =
      some { defaultPrevented := true
             propagationStopped := true
             callback := some (if abOutcome.result.isValid then
                 CallbackCall.onFinish abOutcome.result.values
               else CallbackCall.onFinishFailed abOutcome.result.values abOutcome.result.errors) } :=
  submitForm_one_callback simpleEngine initialFormState storeAB abOutcome rfl

/-! ### Lookup lemmas for the dispatch sequence of the `catch` branch -/

theorem alookup_eq_none_of_forall {β : Type} {l : List (String × β)} {n : String}
    (h : ∀ x ∈ l, x.1 ≠ n) : alookup l n = none := by
  induction l with
  | nil => rfl
  | cons p rest ih =>
      simp only [alookup]
      rw [if_neg (h p (by simp))]
      exact ih fun x hx => h x (by simp [hx])

theorem alookup_eq_of_mem_nodup {β : Type} {l : List (String × β)} {p : String × β}
    (hp : p ∈ l) (hnd : (l.map fun q => q.1).Nodup) : alookup l p.1 = some p.2 := by
  induction l with
  | nil => simp at hp
  | cons q rest ih =>
      simp only [List.map_cons, List.nodup_cons] at hnd
      obtain ⟨hq, hnd2⟩ := hnd
      rcases List.mem_cons.mp hp with rfl | hp2
      · simp [alookup]
      · have hne : q.1 ≠ p.1 := fun he => hq (List.mem_map.mpr ⟨p, hp2, he.symm⟩)
        simp only [alookup, if_neg hne]
        exact ih hp2 hnd2

/-- Folding a run of keyed record updates (each action rebuilding the
record for its key from the state's current record) over the store, for
pairwise-distinct keys: the record at `n` is the original record
transformed by `n`'s action, or untouched when no action targets `n`. -/
theorem alookup_foldl_upd {γ : Type} (g : FieldDetail → γ → FieldDetail)
    (as : List (String × γ)) (s : FieldsState) (n : String)
    (hnd : (as.map fun a => a.1).Nodup) :
    alookup (as.foldl (fun st a => upsert st a.1 (g ((alookup st a.1).getD {}) a.2)) s) n =
      match alookup as n with
      | some x => some (g ((alookup s n).getD {}) x)
      | none => alookup s n := by
  induction as generalizing s with
  | nil => rfl
  | cons a rest ih =>
      simp only [List.map_cons, List.nodup_cons] at hnd
      obtain ⟨hna, hnd2⟩ := hnd
      simp only [List.foldl_cons]
      by_cases ha : a.1 = n
      · subst ha
        have hrest : alookup rest a.1 = none := by
          apply alookup_eq_none_of_forall
          intro x hx hxn
          exact hna (List.mem_map.mpr ⟨x, hx, hxn⟩)
        rw [ih _ hnd2, hrest, alookup_upsert]
        simp [alookup]
      · have ha2 : ¬ n = a.1 := fun h => ha h.symm
        rw [ih _ hnd2, alookup_upsert]
        simp only [alookup, if_neg ha, if_neg ha2]

/-- Every entry of `actionsFor` comes from a store entry with the same
key and carries exactly the per-field result the `catch` branch computes
for that entry. -/
theorem actionsFor_mem {fields : FieldsState} {errors : ErrorFields}
    {a : String × Bool × List ValidateError} (ha : a ∈ actionsFor fields errors) :
    ∃ p ∈ fields, p.1 = a.1 ∧
      ((alookup errors p.1 = some a.2.2 ∧ a.2.1 = false)
        ∨ (alookup errors p.1 = none ∧ a.2.1 = true ∧ a.2.2 = []
            ∧ (p.2.rules.getD []).length > 0)) := by
  obtain ⟨p, hp, hfp⟩ := List.mem_filterMap.mp ha
  refine ⟨p, hp, ?_⟩
  rcases hme : alookup errors p.1 with _ | es
  · rw [hme] at hfp
    by_cases hr : (p.2.rules.getD []).length > 0
    · rw [if_pos hr] at hfp
      cases hfp
      exact ⟨rfl, Or.inr ⟨rfl, rfl, rfl, hr⟩⟩
    · rw [if_neg hr] at hfp
      cases hfp
  · rw [hme] at hfp
    cases hfp
    exact ⟨rfl, Or.inl ⟨rfl, rfl⟩⟩

theorem actionsFor_keys_sublist (fields : FieldsState) (errors : ErrorFields) :
    ((actionsFor fields errors).map fun a => a.1).Sublist (fields.map fun p => p.1) := by
  induction fields with
  | nil => simp [actionsFor]
  | cons p rest ih =>
      simp only [actionsFor, List.filterMap_cons] at *
      rcases hme : alookup errors p.1 with _ | es
      · by_cases hr : (p.2.rules.getD []).length > 0
        · simp only [hme, if_pos hr, List.map_cons]
          exact List.Sublist.cons₂ _ ih
        · simp only [hme, if_neg hr, List.map_cons]
          exact List.Sublist.cons _ ih
      · simp only [hme, List.map_cons]
        exact List.Sublist.cons₂ _ ih

/-- The per-field result `actionsFor` holds for a given name, in terms of
the store record and the error mapping. -/
theorem alookup_actionsFor (fields : FieldsState) (errors : ErrorFields)
    (hnd : (fields.map fun p => p.1).Nodup) (n : String) :
    alookup (actionsFor fields errors) n =
      (alookup fields n).bind fun fd =>
        match alookup errors n with
        | some es => some (false, es)
        | none =>
            if (fd.rules.getD []).length > 0 then some (true, ([] : List ValidateError))
            else none := by
  induction fields with
  | nil => rfl
  | cons p rest ih =>
      simp only [List.map_cons, List.nodup_cons] at hnd
      obtain ⟨hp, hnd2⟩ := hnd
      have hih := ih hnd2
      simp only [actionsFor] at hih ⊢
      simp only [List.filterMap_cons]
      by_cases hpn : p.1 = n
      · subst hpn
        rcases hme : alookup errors p.1 with _ | es
        · by_cases hr : (p.2.rules.getD []).length > 0
          · simp [alookup, hme, hr]
          · simp only [hme, if_neg hr]
            have hnone : alookup (rest.filterMap fun p =>
                match alookup errors p.1 with
                | some itemErrors => some (p.1, false, itemErrors)
                | none =>
                    if (p.2.rules.getD []).length > 0 then
                      some (p.1, true, ([] : List ValidateError))
                    else none) p.1 = none := by
              apply alookup_eq_none_of_forall
              intro x hx hxn
              obtain ⟨q, hq, hq1, _⟩ := actionsFor_mem (show x ∈ actionsFor rest errors from hx)
              exact hp (List.mem_map.mpr ⟨q, hq, by rw [hq1, hxn]⟩)
            rw [hnone]
            simp [alookup, hr]
        · simp [alookup, hme]
      · rcases hme : alookup errors p.1 with _ | es
        · by_cases hr : (p.2.rules.getD []).length > 0
          · simp only [hme, if_pos hr, alookup, if_neg hpn]
            exact hih
          · simp only [hme, if_neg hr, alookup, if_neg hpn]
            exact hih
        · simp only [hme, alookup, if_neg hpn]
          exact hih

/-- The store after the `catch` branch's dispatches, record by record:
a field with an error entry gets it with `isValid=false`; a field with
rules but no entry is reset to `isValid=true, errors=[]`; a field with no
rules is untouched. -/
theorem alookup_redistribute (fields : FieldsState) (errors : ErrorFields)
    (hnd : (fields.map fun p => p.1).Nodup) (n : String) :
    alookup (redistribute fields errors) n =
      (alookup fields n).map fun fd =>
        match alookup errors n with
        | some es => { fd with isValid := some false, errors := some es }
        | none =>
            if (fd.rules.getD []).length > 0 then
              { fd with isValid := some true, errors := some [] }
            else fd := by
  have hndA : ((actionsFor fields errors).map fun a => a.1).Nodup :=
    (actionsFor_keys_sublist fields errors).nodup hnd
  have h1 := alookup_foldl_upd
      (fun fd x => { fd with isValid := some x.1, errors := some x.2 })
      (actionsFor fields errors) fields n hndA
  have h0 : (actionsFor fields errors).foldl
      (fun st a => upsert st a.1
        ((fun fd x => { fd with isValid := some x.1, errors := some x.2 })
          ((alookup st a.1).getD {}) a.2)) fields = redistribute fields errors := rfl
  rw [h0, alookup_actionsFor fields errors hnd n] at h1
  rw [h1]
  rcases hf : alookup fields n with _ | fd
  · simp
  · rcases he : alookup errors n with _ | es
    · by_cases hr : (fd.rules.getD []).length > 0
      · simp [hr]
      · simp [hr]
    · simp

/-! ### Claim C3: the failure path redistributes the aggregate error -/

/-- C3: when the single engine call fails with an aggregate error, the
call returns `isValid=false` with `errors` equal to the error's field
mapping, and for every registered field: an entry in the mapping is
stored as `isValid=false` with that entry; no entry but a nonempty rule
list is stored as `isValid=true, errors=[]`; a field with no rules keeps
its record untouched.  Moreover every `updateValidateResult` dispatched by
the call is one of those two forms, so no-rule fields receive no
dispatch. -/
theorem validateAllFields_failure_redistributes (engine : Engine) (form : FormState)
    (fields : FieldsState) (err : AggregateError) (d : Descriptor)
    (hnd : (fields.map fun p => p.1).Nodup)
    (hd : descriptorOf? (getFieldValue fields) fields = some d)
    (he : engine d (getFieldsValue fields) = some err) :
    ∃ o, validateAllFields engine form fields = some o
      ∧ o.result.isValid = false
      ∧ o.result.errors = err.fields
      ∧ (∀ n fd, alookup fields n = some fd →
          alookup o.fields n = some (
            match alookup err.fields n with
            | some es => { fd with isValid := some false, errors := some es }
            | none =>
                if (fd.rules.getD []).length > 0 then
                  { fd with isValid := some true, errors := some [] }
                else fd))
      ∧ (∀ n b es, StoreEvent.dispatch (.updateValidateResult n b es) ∈ o.events →
          ((alookup err.fields n = some es ∧ b = false)
            ∨ (alookup err.fields n = none ∧ b = true ∧ es = []
                ∧ ∃ fd, alookup fields n = some fd ∧ (fd.rules.getD []).length > 0))) := by
  refine ⟨⟨⟨false, err.fields, getFieldsValue fields⟩, redistribute fields err.fields,
    finishedForm form false err.fields,
    .setForm (submittingForm form) :: .engineCall d (getFieldsValue fields) ::
      ((actionsFor fields err.fields).map fun a => .dispatch (dispatchOf a)) ++
      [.setForm (finishedForm form false err.fields)]⟩, ?_, rfl, rfl, ?_, ?_⟩
  · simp [validateAllFields, hd, he]
  · intro n fd hf
    rw [show (⟨⟨false, err.fields, getFieldsValue fields⟩, redistribute fields err.fields,
        finishedForm form false err.fields, _⟩ : VAllOutcome).fields =
        redistribute fields err.fields from rfl]
    rw [alookup_redistribute fields err.fields hnd n, hf]
    rfl
  · intro n b es hmem
    rcases List.mem_cons.mp hmem with h0 | hmem1
    · exact absurd h0 (by simp)
    rcases List.mem_cons.mp hmem1 with h0 | hmem2
    · exact absurd h0 (by simp)
    rcases List.mem_append.mp hmem2 with h2 | h2
    swap
    · exact absurd (List.mem_singleton.mp h2) (by simp)
    obtain ⟨a, ha, haq⟩ := List.mem_map.mp h2
    have haq2 : dispatchOf a = FieldsAction.updateValidateResult n b es := by
      injection haq
    have h3 : a.1 = n ∧ a.2.1 = b ∧ a.2.2 = es := by
      simp only [dispatchOf, FieldsAction.updateValidateResult.injEq] at haq2
      exact haq2
    obtain ⟨han, hab, haes⟩ := h3
    obtain ⟨p, hp, hp1, hcase⟩ := actionsFor_mem ha
    rcases hcase with ⟨hme, hfalse⟩ | ⟨hme, htrue, hnil, hr⟩
    · left
      constructor
      · rw [← haes, ← han, ← hp1]
        exact hme
      · rw [← hab]
        exact hfalse
    · right
      refine ⟨?_, ?_, ?_, p.2, ?_, hr⟩
      · rw [← han, ← hp1]
        exact hme
      · rw [← hab]
        exact htrue
      · rw [← haes]
        exact hnil
      · rw [← han, ← hp1]
        exact alookup_eq_of_mem_nodup hp hnd

/-- The engine error the concrete engine raises on `storeAB`: only field
"a" fails its required rule. -/
def abError : AggregateError :=
  ⟨[⟨"a is required", "a"⟩], [("a", [⟨"a is required", "a"⟩])]⟩

/-- The combined descriptor `validateAllFields` builds for `storeAB`. -/
def abDescriptor : Descriptor :=
  [("a", [{ required := true, message := "a is required" }]),
   ("b", [{ required := true, message := "b is required" }])]

/-- Witness for C3 at the spec's two-field aggregate example. -/
theorem validateAllFields_failure_redistributes_witness :
    ∃ o, validateAllFields simpleEngine initialFormState storeAB = some o
      ∧ o.result.isValid = false
      ∧ o.result.errors = abError.fields
      ∧ (∀ n fd, alookup storeAB n = some fd →
          alookup o.fields n = some (
            match alookup abError.fields n with
            | some es => { fd with isValid := some false, errors := some es }
            | none =>
                if (fd.rules.getD []).length > 0 then
                  { fd with isValid := some true, errors := some [] }
                else fd))
      ∧ (∀ n b es, StoreEvent.dispatch (.updateValidateResult n b es) ∈ o.events →
          ((alookup abError.fields n = some es ∧ b = false)
            ∨ (alookup abError.fields n = none ∧ b = true ∧ es = []
                ∧ ∃ fd, alookup storeAB n = some fd ∧ (fd.rules.getD []).length > 0))) :=
  validateAllFields_failure_redistributes simpleEngine initialFormState storeAB
    abError abDescriptor (by decide) rfl rfl

/-! ### Claim C7: the dispatches of the failure path touch neither values
nor rules, so aggregate validation is idempotent -/

/-- The part of a store entry that feeds the next validation call: its
key, its value and its rule list. -/
def proj (p : String × FieldDetail) : String × Option Value × Option (List CustomRule) :=
  (p.1, p.2.value, p.2.rules)

theorem alookup_isSome_of_projEq :
    ∀ {s₁ s₂ : FieldsState}, s₁.map proj = s₂.map proj →
      ∀ k, (alookup s₁ k).isSome = (alookup s₂ k).isSome := by
  intro s₁
  induction s₁ with
  | nil =>
      intro s₂ h k
      cases s₂ with
      | nil => rfl
      | cons q r => simp at h
  | cons p rest ih =>
      intro s₂ h k
      cases s₂ with
      | nil => simp at h
      | cons q rest₂ =>
          simp only [List.map_cons, List.cons.injEq] at h
          obtain ⟨hpq, hrest⟩ := h
          simp only [proj, Prod.mk.injEq] at hpq
          obtain ⟨h1, h2, h3⟩ := hpq
          simp only [alookup]
          rw [h1]
          by_cases hk : q.1 = k
          · simp [hk]
          · simp only [if_neg hk]
            exact ih hrest k

theorem getFieldValue_of_projEq :
    ∀ {s₁ s₂ : FieldsState}, s₁.map proj = s₂.map proj →
      getFieldValue s₁ = getFieldValue s₂ := by
  intro s₁
  induction s₁ with
  | nil =>
      intro s₂ h
      cases s₂ with
      | nil => rfl
      | cons q r => simp at h
  | cons p rest ih =>
      intro s₂ h
      cases s₂ with
      | nil => simp at h
      | cons q rest₂ =>
          simp only [List.map_cons, List.cons.injEq] at h
          obtain ⟨hpq, hrest⟩ := h
          simp only [proj, Prod.mk.injEq] at hpq
          obtain ⟨h1, h2, h3⟩ := hpq
          funext k
          simp only [getFieldValue, alookup]
          rw [h1]
          by_cases hk : q.1 = k
          · simp [hk, h2]
          · simp only [if_neg hk]
            exact congrFun (ih hrest) k

theorem getFieldsValue_of_projEq :
    ∀ {s₁ s₂ : FieldsState}, s₁.map proj = s₂.map proj →
      getFieldsValue s₁ = getFieldsValue s₂ := by
  intro s₁
  induction s₁ with
  | nil =>
      intro s₂ h
      cases s₂ with
      | nil => rfl
      | cons q r => simp at h
  | cons p rest ih =>
      intro s₂ h
      cases s₂ with
      | nil => simp at h
      | cons q rest₂ =>
          simp only [List.map_cons, List.cons.injEq] at h
          obtain ⟨hpq, hrest⟩ := h
          simp only [proj, Prod.mk.injEq] at hpq
          obtain ⟨h1, h2, h3⟩ := hpq
          simp only [getFieldsValue, List.map_cons, List.cons.injEq]
          exact ⟨by rw [h1, h2], ih hrest⟩

theorem descriptorOf?_of_projEq (acc : String → Option Value) :
    ∀ {s₁ s₂ : FieldsState}, s₁.map proj = s₂.map proj →
      descriptorOf? acc s₁ = descriptorOf? acc s₂ := by
  intro s₁
  induction s₁ with
  | nil =>
      intro s₂ h
      cases s₂ with
      | nil => rfl
      | cons q r => simp at h
  | cons p rest ih =>
      intro s₂ h
      cases s₂ with
      | nil => simp at h
      | cons q rest₂ =>
          simp only [List.map_cons, List.cons.injEq] at h
          obtain ⟨hpq, hrest⟩ := h
          simp only [proj, Prod.mk.injEq] at hpq
          obtain ⟨h1, h2, h3⟩ := hpq
          simp only [descriptorOf?]
          rw [h1, h3, ih hrest]

theorem projEq_applyResult (s : FieldsState) (a : String × Bool × List ValidateError)
    (h : (alookup s a.1).isSome) : (applyResult s a).map proj = s.map proj := by
  induction s with
  | nil => simp [alookup] at h
  | cons p rest ih =>
      simp only [applyResult, dispatchOf, fieldsReducer, alookup, upsert] at h ⊢
      by_cases hpa : p.1 = a.1
      · simp only [if_pos hpa, Option.getD_some]
        simp [proj, hpa]
      · simp only [if_neg hpa] at h ⊢
        simp only [List.map_cons]
        exact congrArg (List.cons (proj p)) (ih h)

theorem projEq_foldl (as : List (String × Bool × List ValidateError)) :
    ∀ s : FieldsState, (∀ x ∈ as, (alookup s x.1).isSome) →
      (as.foldl applyResult s).map proj = s.map proj := by
  induction as with
  | nil =>
      intro s _
      rfl
  | cons a rest ih =>
      intro s h
      simp only [List.foldl_cons]
      have h1 : (alookup s a.1).isSome := h a (List.mem_cons_self a rest)
      have hstep : (applyResult s a).map proj = s.map proj := projEq_applyResult s a h1
      have hkeys : ∀ x ∈ rest, (alookup (applyResult s a) x.1).isSome := by
        intro x hx
        rw [alookup_isSome_of_projEq hstep x.1]
        exact h x (List.mem_cons_of_mem a hx)
      rw [ih (applyResult s a) hkeys, hstep]

/-- The `catch` branch's dispatches never change a field's value or rule
list (nor the key set): they only rewrite `isValid`/`errors`. -/
theorem projEq_redistribute (fields : FieldsState) (errors : ErrorFields) :
    (redistribute fields errors).map proj = fields.map proj := by
  apply projEq_foldl
  intro x hx
  obtain ⟨p, hp, hp1, _⟩ := actionsFor_mem hx
  rw [← hp1]
  exact alookup_isSome_of_mem hp

/-- C7: `validateAllFields` is idempotent on an unchanged store: running
it again on the store produced by a first run (with any render-time form
state) yields the same `{isValid, errors, values}` — the first run's
dispatches changed only `isValid`/`errors`, which feed neither the value
map nor the descriptor of the second run.  The engine, being a function,
is deterministic by construction. -/
theorem validateAllFields_idempotent (engine : Engine) (form form2 : FormState)
    (fields : FieldsState) (o : VAllOutcome)
    (h : validateAllFields engine form fields = some o) :
    ∃ o2, validateAllFields engine form2 o.fields = some o2 ∧ o2.result = o.result := by
  rcases hd : descriptorOf? (getFieldValue fields) fields with _ | d
  · simp [validateAllFields, hd] at h
  · rcases he : engine d (getFieldsValue fields) with _ | err
    · simp only [validateAllFields, hd, he, Option.some.injEq] at h
      subst h
      exact ⟨⟨⟨true, [], getFieldsValue fields⟩, fields, finishedForm form2 true [],
        [.setForm (submittingForm form2), .engineCall d (getFieldsValue fields),
         .setForm (finishedForm form2 true [])]⟩, by simp [validateAllFields, hd, he], rfl⟩
    · simp only [validateAllFields, hd, he, Option.some.injEq] at h
      subst h
      have hproj : (redistribute fields err.fields).map proj = fields.map proj :=
        projEq_redistribute fields err.fields
      have hacc : getFieldValue (redistribute fields err.fields) = getFieldValue fields :=
        getFieldValue_of_projEq hproj
      have hvals : getFieldsValue (redistribute fields err.fields) = getFieldsValue fields :=
        getFieldsValue_of_projEq hproj
      have hd2 : descriptorOf? (getFieldValue (redistribute fields err.fields))
          (redistribute fields err.fields) = some d := by
        rw [hacc, descriptorOf?_of_projEq (getFieldValue fields) hproj, hd]
      refine ⟨⟨⟨false, err.fields, getFieldsValue (redistribute fields err.fields)⟩,
        redistribute (redistribute fields err.fields) err.fields,
        finishedForm form2 false err.fields,
        .setForm (submittingForm form2) ::
          .engineCall d (getFieldsValue (redistribute fields err.fields)) ::
          ((actionsFor (redistribute fields err.fields) err.fields).map
            fun a => .dispatch (dispatchOf a)) ++
          [.setForm (finishedForm form2 false err.fields)]⟩, ?_, ?_⟩
      · simp only [validateAllFields, hd2]
        rw [hvals]
        simp only [he]
      · simp [hvals]

/-- Witness for C7: a second aggregate run on the store left by the
failing run on `storeAB` returns the same result. -/
theorem validateAllFields_idempotent_witness :
    ∃ o2, validateAllFields simpleEngine initialFormState abOutcome.fields = some o2
      ∧ o2.result = abOutcome.result :=
  validateAllFields_idempotent simpleEngine initialFormState initialFormState storeAB
    abOutcome rfl

/-! ### Claim C10: `resetFields` -/

theorem alookup_filter {β : Type} (q : String × β → Bool) (l : List (String × β)) (n : String)
    (hq : ∀ x ∈ l, x.1 = n → q x = true) : alookup (l.filter q) n = alookup l n := by
  induction l with
  | nil => rfl
  | cons p rest ih =>
      have ihr := ih fun x hx => hq x (List.mem_cons_of_mem p hx)
      by_cases hpn : p.1 = n
      · have hqp : q p = true := hq p (List.mem_cons_self p rest) hpn
        simp [List.filter_cons, hqp, alookup, hpn]
      · cases hqp : q p
        · simp [List.filter_cons, hqp, alookup, hpn, ihr]
        · simp [List.filter_cons, hqp, alookup, hpn, ihr]

/-- C10: `resetFields` with no `initialValues` leaves the store entirely
unchanged; with `initialValues`, a field gets `updateValue` only when its
name appears in both `initialValues` and the store — such a field keeps
its rules, `errors` and `isValid` and only its value is overwritten;
registered fields absent from `initialValues` keep their whole record;
names in `initialValues` that are not registered are ignored (no record
appears for them). -/
theorem resetFields_frame :
    (∀ fields : FieldsState, resetFields none fields = fields)
    ∧ ∀ (ivs : List (String × Value)) (fields : FieldsState) (n : String),
        ((ivs.map fun p => p.1).Nodup) →
        alookup (resetFields (some ivs) fields) n =
          match alookup fields n, alookup ivs n with
          | some fd, some v => some { fd with value := some v }
          | some fd, none => some fd
          | none, _ => none := by
  refine ⟨fun fields => rfl, ?_⟩
  intro ivs fields n hnd
  have hndf : (((ivs.filter fun p => (alookup fields p.1).isSome).map fun p => p.1).Nodup) :=
    (((List.filter_sublist ivs).map (fun p => p.1)).nodup hnd)
  have h1 := alookup_foldl_upd (fun fd v => { fd with value := some v })
      (ivs.filter fun p => (alookup fields p.1).isSome) fields n hndf
  have h0 : (ivs.filter fun p => (alookup fields p.1).isSome).foldl
      (fun st a => upsert st a.1
        ((fun fd v => { fd with value := some v }) ((alookup st a.1).getD {}) a.2)) fields =
      resetFields (some ivs) fields := rfl
  rw [h0] at h1
  rcases hf : alookup fields n with _ | fd
  · have h2 : alookup (ivs.filter fun p => (alookup fields p.1).isSome) n = none := by
      apply alookup_eq_none_of_forall
      intro x hx hxn
      have h3 := (List.mem_filter.mp hx).2
      rw [hxn, hf] at h3
      simp at h3
    rw [h2] at h1
    exact h1.trans hf
  · have h2 : alookup (ivs.filter fun p => (alookup fields p.1).isSome) n = alookup ivs n := by
      apply alookup_filter
      intro x hx hxn
      rw [hxn, hf]
      rfl
    rw [h2] at h1
    rcases hi : alookup ivs n with _ | v
    · rw [hi] at h1
      exact h1.trans hf
    · rw [hi, hf] at h1
      simpa using h1

/-- Witness for C10: reset on `storeAB` with an initial-value map naming
the registered "a" and an unregistered "ghost". -/
theorem resetFields_frame_witness :
    resetFields none storeAB = storeAB
    ∧ alookup (resetFields (some [("a", "10"), ("ghost", "99")]) storeAB) "a" =
        match alookup storeAB "a", alookup [("a", "10"), ("ghost", "99")] "a" with
        | some fd, some v => some { fd with value := some v }
        | some fd, none => some fd
        | none, _ => none :=
  ⟨resetFields_frame.1 storeAB,
   resetFields_frame.2 [("a", "10"), ("ghost", "99")] storeAB "a" (by decide)⟩

end VikingForm
